import Mathlib

/-!
Verification of the word-variation generation and duplicate-suppression
pipeline of the advance-wordlist-generator repository.

The embedding follows `src/core/generator.py`, `src/core/patterns.py` and
`src/core/optimizations.py`.  Python strings are Lean `String`s (operating on
`String.data : List Char`, which matches Python semantics for the ASCII data
this program manipulates); Python sets are lists up to `dedup` (only
membership is ever relied on by the proofs, since the source iterates sets in
an implementation-defined order); the real-time resource checks of the
engines are abstracted into boolean oracles (`wordCont`, `varCont`) giving
the outcome of each check, so theorems quantifying over the oracles cover
every possible run; the Bloom filter's md5-derived hash is an abstract
function `String → Nat → Nat` because its exact value is irrelevant to every
property proved here, and the float computation sizing the engine's filter is
modelled over the reals.
-/

namespace AWG

/-- Python `str.lower()` (ASCII). -/
def py_lower (s : String) : String := String.mk (s.data.map Char.toLower)

/-- Python `str.upper()` (ASCII). -/
def py_upper (s : String) : String := String.mk (s.data.map Char.toUpper)

/-- Python `str.capitalize()`: first character upper-cased, rest lower-cased.
Also models `word[0].upper() + word[1:].lower()` from the source, which is
the same function. -/
def py_capitalize (s : String) : String :=
  match s.data with
  | [] => String.mk []
  | c :: cs => String.mk (Char.toUpper c :: cs.map Char.toLower)

/-- Python `str.strip()`: drop leading and trailing whitespace. -/
def py_strip (s : String) : String :=
  String.mk (((s.data.dropWhile Char.isWhitespace).reverse.dropWhile
    Char.isWhitespace).reverse)

/-- Python `s.replace(c, r)` for a single-character pattern. -/
def py_replace_char (s : String) (c r : Char) : String :=
  String.mk (s.data.map (fun ch => if ch = c then r else ch))

/-- Python `s.replace(c1, r).replace(c2, r)` for single-character patterns
with a replacement distinct from both patterns, as in the leet transforms. -/
def py_replace_two (s : String) (c1 c2 r : Char) : String :=
  String.mk (s.data.map (fun ch => if ch = c1 ∨ ch = c2 then r else ch))

/-- Python `c in s` for a single character `c`. -/
def py_has_char (s : String) (c : Char) : Bool := s.data.contains c

/-- Python `s[0]`, failing with an IndexError on the empty string. -/
def py_index0 (s : String) : Except String Char :=
  match s.data with
  | [] => Except.error "IndexError"
  | c :: _ => Except.ok c

/-- The bound check `min_length <= len(word) <= max_length` used throughout
`generator.py`. -/
def length_ok (minL maxL : ℕ) (w : String) : Bool :=
  decide (minL ≤ w.length) && decide (w.length ≤ maxL)

/-- Engine configuration: length bounds and the five feature toggles of
`BaseWordlistGenerator.__init__`. -/
structure GenCfg where
  min_length : ℕ
  max_length : ℕ
  enable_leet : Bool
  enable_capitals : Bool
  append_numbers : Bool
  prepend_numbers : Bool
  special_chars : Bool
deriving DecidableEq

/-! ### Pattern Transform Library (`src/core/patterns.py`) -/

/-- `BasicPatternGenerator.common_numbers`. -/
def common_numbers_basic : List String :=
  ["1", "12", "123", "1234", "007", "69", "2024", "2023"]

/-- `BasicPatternGenerator.special_chars`. -/
def special_chars_basic : List String := ["!", "@", "#", "$"]

/-- The fixed internal cap returned by `BasicPatternGenerator._get_max_length`. -/
def internal_cap : ℕ := 20

/-- The single-digit strings `str(i)` for `i in range(10)`. -/
def digit_strings : List String :=
  ["0", "1", "2", "3", "4", "5", "6", "7", "8", "9"]

/-- `BasicPatternGenerator.smart_leet_transform`. -/
def smart_leet_transform (word : String) : List String :=
  [word]
  ++ (if py_has_char (py_lower word) 'a' then
        [py_replace_two word 'a' 'A' '4', py_replace_two word 'a' 'A' '@']
      else [])
  ++ (if py_has_char (py_lower word) 'e' then
        [py_replace_two word 'e' 'E' '3'] else [])
  ++ (if py_has_char (py_lower word) 'i' then
        [py_replace_two word 'i' 'I' '1'] else [])
  ++ (if py_has_char (py_lower word) 'o' then
        [py_replace_two word 'o' 'O' '0'] else [])
  ++ (if py_has_char (py_lower word) 's' then
        [py_replace_two word 's' 'S' '5', py_replace_two word 's' 'S' '$']
      else [])

/-- `BasicPatternGenerator.smart_number_append`: guarded common numbers, then
unguarded single digits. -/
def smart_number_append (word : String) : List String :=
  (common_numbers_basic.filter
      (fun n => decide ((word ++ n).length ≤ internal_cap))).map
    (fun n => word ++ n)
  ++ digit_strings.map (fun d => word ++ d)

/-- `BasicPatternGenerator.smart_number_prepend`: first five common numbers
guarded, then unguarded digits 0-4. -/
def smart_number_prepend (word : String) : List String :=
  ((common_numbers_basic.take 5).filter
      (fun n => decide ((n ++ word).length ≤ internal_cap))).map
    (fun n => n ++ word)
  ++ (digit_strings.take 5).map (fun d => d ++ word)

/-- `BasicPatternGenerator.smart_special_chars`: prefix and suffix variants,
each guarded by the 20-character cap. -/
def smart_special_chars (word : String) : List String :=
  special_chars_basic.flatMap (fun c =>
    (if decide ((c ++ word).length ≤ internal_cap) then [c ++ word] else [])
    ++ (if decide ((word ++ c).length ≤ internal_cap) then [word ++ c] else []))

/-- `AdvancedPatternGenerator.common_numbers`. -/
def common_numbers_adv : List String :=
  ["1", "12", "123", "1234", "12345", "007", "69", "420", "777"]

/-- `AdvancedPatternGenerator.years`. -/
def years_adv : List String := ["2024", "2023", "2022", "2021", "2020"]

/-- `AdvancedPatternGenerator.special_chars`. -/
def special_chars_adv : List String := ["!", "@", "#", "$", "%", "&", "*"]

/-- The tens-step strings `str(i)` for `i in range(10, 100, 10)`. -/
def tens_strings : List String :=
  ["10", "20", "30", "40", "50", "60", "70", "80", "90"]

/-- `AdvancedPatternGenerator.optimized_number_append`: common numbers and
years guarded by the 20-character cap, single digits and tens unguarded. -/
def optimized_number_append (word : String) : List String :=
  (common_numbers_adv.filter
      (fun n => decide ((word ++ n).length ≤ internal_cap))).map
    (fun n => word ++ n)
  ++ (years_adv.filter
      (fun n => decide ((word ++ n).length ≤ internal_cap))).map
    (fun n => word ++ n)
  ++ digit_strings.map (fun d => word ++ d)
  ++ tens_strings.map (fun d => word ++ d)

/-- `AdvancedPatternGenerator.optimized_number_prepend`: first eight common
numbers and first three years guarded, single digits unguarded. -/
def optimized_number_prepend (word : String) : List String :=
  ((common_numbers_adv.take 8).filter
      (fun n => decide ((n ++ word).length ≤ internal_cap))).map
    (fun n => n ++ word)
  ++ ((years_adv.take 3).filter
      (fun n => decide ((n ++ word).length ≤ internal_cap))).map
    (fun n => n ++ word)
  ++ digit_strings.map (fun d => d ++ word)

/-- `AdvancedPatternGenerator.optimized_special_chars`: entirely unguarded
prefix, suffix, wrap and cross variants. -/
def optimized_special_chars (word : String) : List String :=
  special_chars_adv.flatMap (fun c =>
    [c ++ word, word ++ c]
    ++ (if c = "!" ∨ c = "@" ∨ c = "#" then [c ++ word ++ c] else []))
  ++ (special_chars_adv.take 2).flatMap (fun c1 =>
      (special_chars_adv.take 2).map (fun c2 => c1 ++ word ++ c2))

/-- Split a character list on a separator, keeping empty segments, as
Python's `str.split(sep)` does. -/
def split_char : List Char → Char → List (List Char)
  | [], _ => [[]]
  | c :: cs, sep =>
    let r := split_char cs sep
    if c = sep then [] :: r else (c :: r.headD []) :: r.tail

/-- `AdvancedPatternGenerator.optimized_capitalization` (set modelled as a
list up to membership). -/
def optimized_capitalization (word : String) : List String :=
  [py_upper word, py_capitalize word]
  ++ (if 3 < word.length then [py_capitalize word] else [])
  ++ (match [' ', '-', '_', '.'].find? (fun c => py_has_char word c) with
      | none => []
      | some sep =>
        let parts := (split_char word.data sep).map String.mk
        [parts.headD (String.mk [])
          ++ String.join ((parts.drop 1).map py_capitalize)])

/-- The substitution pairs of `AdvancedPatternGenerator.optimized_leet_transform`. -/
def leet_subs_adv : List (Char × Char) :=
  [('a', '4'), ('a', '@'), ('e', '3'), ('i', '1'),
   ('i', '!'), ('o', '0'), ('s', '5'), ('s', '$'), ('t', '7')]

/-- `AdvancedPatternGenerator.optimized_leet_transform` (result set modelled
as a deduplicated list). -/
def optimized_leet_transform (word : String) : List String :=
  ([word] ++ leet_subs_adv.flatMap (fun p =>
    if py_has_char (py_lower word) p.1 then
      [py_replace_char (py_lower word) p.1 p.2,
       String.mk (word.data.map (fun ch => if ch.toLower = p.1 then p.2 else ch))]
    else [])).dedup

/-! ### Name Seed Builder (`BaseWordlistGenerator._generate_smart_name_combinations`)

String indexing (`first_name[0]` etc.) is partial in Python, so the builder
lives in `Except String`, failing exactly where the source would raise an
IndexError. -/

/-- Body of `_generate_smart_name_combinations`, taking the already
normalized first/last name and the normalized middle name (`none` when the
`middle_name` attribute is falsy). -/
def generate_smart_name_combinations (f l : String) (m : Option String)
    (minL maxL : ℕ) : Except String (List String) := do
  let names : List String :=
    (if f ≠ "" then [f] else []) ++ (if l ≠ "" then [l] else [])
    ++ (match m with
        | none => []
        | some mn => if mn ≠ "" then [mn] else [])
  let indiv : List String := names.flatMap (fun n => [n, py_upper n, py_capitalize n])
  let mainCombos : List String ←
    if f ≠ "" ∧ l ≠ "" then do
      let f0 ← py_index0 f
      let l0 ← py_index0 l
      pure [f ++ l, l ++ f, f ++ "_" ++ l, f ++ "." ++ l, f ++ "-" ++ l,
        String.mk [f0] ++ l, f ++ String.mk [l0], String.mk [f0] ++ String.mk [l0],
        f ++ "123", l ++ "123", "admin" ++ l, f ++ "admin"]
    else pure []
  let middleCombos : List String ←
    match m with
    | none => pure []
    | some mn =>
      if mn ≠ "" then do
        let m0 ← py_index0 mn
        let f0 ← py_index0 f
        let l0 ← py_index0 l
        pure [f ++ String.mk [m0] ++ l, String.mk [f0] ++ String.mk [m0] ++ String.mk [l0],
          mn ++ l, f ++ mn]
      else pure []
  pure (((indiv ++ mainCombos ++ middleCombos).dedup).filter (length_ok minL maxL))

/-- `BaseWordlistGenerator.__init__`: normalizes the three names (`strip` then
`lower`; a falsy middle name becomes `None`) and builds the seed set.  The
result is the seed list, or the IndexError the builder may raise. -/
def base_generator_init (first last : String) (middle : Option String)
    (minL maxL : ℕ) : Except String (List String) :=
  let f := py_lower (py_strip first)
  let l := py_lower (py_strip last)
  let m : Option String :=
    match middle with
    | none => none
    | some s => if s = "" then none else some (py_lower (py_strip s))
  generate_smart_name_combinations f l m minL maxL

/-- The seed list of a successfully constructed engine (empty on failure);
used to state concrete seed-set facts. -/
def seed_list (first last : String) (middle : Option String)
    (minL maxL : ℕ) : List String :=
  match base_generator_init first last middle minL maxL with
  | Except.ok l => l
  | Except.error _ => []

/-! ### Probabilistic Membership Filter (`src/core/optimizations.py`)

The bit array is modelled as the list of bit positions that have been set
(setting bit `hash_val` of the `bytearray` marks exactly position
`hash_val`).  The md5-derived hash family `_hashes` is abstracted into a
function `hash : String → ℕ → ℕ` reduced modulo the filter size, which is
all `add`/`contains` depend on. -/

/-- The `hash_count` bit positions `_hashes` yields for an item:
`hash(item, i) mod size` for `i in range(hash_count)`. -/
def bloom_positions (hash : String → ℕ → ℕ) (hashCount size : ℕ)
    (item : String) : List ℕ :=
  (List.range hashCount).map (fun i => hash item i % size)

/-- `BloomFilter.add`: set every position `_hashes(item)` yields. -/
def bloom_add (hash : String → ℕ → ℕ) (hashCount size : ℕ)
    (bits : List ℕ) (item : String) : List ℕ :=
  bits ++ bloom_positions hash hashCount size item

/-- `BloomFilter.contains`: true iff every position `_hashes(item)` yields is
set. -/
def bloom_contains (hash : String → ℕ → ℕ) (hashCount size : ℕ)
    (bits : List ℕ) (item : String) : Bool :=
  (bloom_positions hash hashCount size item).all (fun p => bits.contains p)

/-- Python `int(x)` on a float: truncation toward zero (modelled over ℝ). -/
noncomputable def py_int (x : ℝ) : ℤ :=
  if 0 ≤ x then Int.floor x else Int.ceil x

/-- `BloomFilter._optimal_size`: `int(-(n * log p) / log(2) ** 2)`. -/
noncomputable def optimal_size (n : ℕ) (p : ℝ) : ℤ :=
  py_int (-((n : ℝ) * Real.log p) / (Real.log 2) ^ 2)

/-- `BloomFilter._optimal_hash_count`: `max(1, int((m / n) * log 2))`. -/
noncomputable def optimal_hash_count (n : ℕ) (m : ℤ) : ℤ :=
  max 1 (py_int (((m : ℝ) / (n : ℝ)) * Real.log 2))

/-! ### Resource Governor (`PerformanceMonitor` and
`BaseWordlistGenerator._should_continue_generation`)

`PSUTIL_AVAILABLE` becomes an explicit boolean argument; the process
memory sample (a float in the source) is a rational argument. -/

/-- `PerformanceMonitor.get_memory_usage`: the sampled RSS, or the fallback
`0.0` when psutil is unavailable. -/
def get_memory_usage (psutilAvailable : Bool) (rssMb : ℚ) : ℚ :=
  if psutilAvailable then rssMb else 0

/-- `PerformanceMonitor.should_continue`: always true without psutil,
otherwise `memory < max_memory_mb`. -/
def should_continue (psutilAvailable : Bool) (rssMb maxMemoryMb : ℚ) : Bool :=
  if psutilAvailable then decide (get_memory_usage psutilAvailable rssMb < maxMemoryMb)
  else true

/-- `BaseWordlistGenerator._should_continue_generation` (default limit 500,
additional peak-memory ceiling 450). -/
def should_continue_generation (psutilAvailable : Bool)
    (rssMb peakMemoryMb : ℚ) : Bool :=
  if psutilAvailable then
    if should_continue psutilAvailable rssMb 500 = false then false
    else if 450 < peakMemoryMb then false
    else true
  else true

/-- The fields of `BaseWordlistGenerator.get_statistics` that the claims
refer to. -/
structure GenStats where
  base_combinations : ℕ
  total_generated : ℕ
  duplicates_prevented : ℕ
  min_length : ℕ
  max_length : ℕ
  performance_monitoring : Bool
deriving DecidableEq

/-- `BaseWordlistGenerator.get_statistics`: in particular the
`performance_monitoring` capability flag is exactly `PSUTIL_AVAILABLE`. -/
def get_statistics (psutilAvailable : Bool) (baseCombinations totalGenerated
    duplicatesPrevented minL maxL : ℕ) : GenStats :=
  ⟨baseCombinations, totalGenerated, duplicatesPrevented, minL, maxL,
   psutilAvailable⟩

/-! ### Generation Engines (`BasicWordlistGenerator.generate_with_callback`
and `AdvancedWordlistGenerator.generate_with_callback`)

The wall-clock-gated resource checks are abstracted into oracles:
`wordCont i` is the outcome of the per-seed check before seed number `i`
(true both when the check did not fire and when it said "continue"), and
`varCont s` the outcome of the per-variant check at global variant step `s`.
Quantifying over the oracles covers every run. -/

/-- `BasicWordlistGenerator._generate_efficient_variations`. -/
def generate_efficient_variations (cfg : GenCfg) (word : String) : List String :=
  [word]
  ++ (if cfg.enable_capitals then
        [py_upper word, py_capitalize word]
        ++ (if 3 < word.length then [py_capitalize word] else [])
      else [])
  ++ (if cfg.enable_leet then smart_leet_transform word else [])
  ++ (if cfg.append_numbers then smart_number_append word else [])
  ++ (if cfg.prepend_numbers then smart_number_prepend word else [])
  ++ (if cfg.special_chars then smart_special_chars word else [])
  ++ (if cfg.enable_leet && cfg.append_numbers then
        ((smart_leet_transform word).take 3).flatMap smart_number_append
      else [])

/-- Inner loop of the Compact engine over one seed's variant stream: per
variant, a resource check (`break` on failure), then the
not-seen-and-in-bounds acceptance test.  Returns (yielded variants, seen set,
next variant step). -/
def basic_inner (cfg : GenCfg) (varCont : ℕ → Bool) :
    List String → List String → ℕ → List String × List String × ℕ
  | [], seen, step => ([], seen, step)
  | v :: vs, seen, step =>
    if varCont step = true then
      if v ∉ seen ∧ length_ok cfg.min_length cfg.max_length v = true then
        let r := basic_inner cfg varCont vs (v :: seen) (step + 1)
        (v :: r.1, r.2)
      else
        basic_inner cfg varCont vs seen (step + 1)
    else ([], seen, step + 1)

/-- Outer loop of the Compact engine over the seeds: the time-gated resource
check (`break` ends the whole run), then the inner loop; the seen set and
variant step persist across seeds. -/
def basic_outer (cfg : GenCfg) (wordCont varCont : ℕ → Bool) :
    List String → List String → ℕ → ℕ → List String
  | [], _, _, _ => []
  | w :: ws, seen, step, widx =>
    if wordCont widx = true then
      let r := basic_inner cfg varCont (generate_efficient_variations cfg w) seen step
      r.1 ++ basic_outer cfg wordCont varCont ws r.2.1 r.2.2 (widx + 1)
    else []

/-- `BasicWordlistGenerator.generate_with_callback`: the sequence of yielded
candidates of one run, starting from an empty seen set. -/
def basic_generate (cfg : GenCfg) (seeds : List String)
    (wordCont varCont : ℕ → Bool) : List String :=
  basic_outer cfg wordCont varCont seeds [] 0 0

/-- `AdvancedWordlistGenerator._generate_optimized_variations`: the staged
variation set (a Python set, modelled as an insertion-ordered deduplicated
list), capped at `max_variations_per_word`. -/
def generate_optimized_variations (cfg : GenCfg) (maxVar : ℕ)
    (word : String) : List String :=
  let core := ([word]
    ++ (if cfg.enable_capitals then optimized_capitalization word else [])
    ++ (if cfg.enable_leet then (optimized_leet_transform word).take 30
        else [])).dedup
  let nums :=
    if cfg.append_numbers || cfg.prepend_numbers then
      (core.take 50).flatMap (fun v =>
        (if cfg.append_numbers then optimized_number_append v else [])
        ++ (if cfg.prepend_numbers then optimized_number_prepend v else []))
    else []
  let withNums := (core ++ nums).dedup
  let specials :=
    if cfg.special_chars then (withNums.take 50).flatMap optimized_special_chars
    else []
  ((withNums ++ specials).dedup).take maxVar

/-- Inner loop of the Exhaustive engine over one seed's variant stream: per
variant, a resource check (`break` on failure), the per-seed variation cap,
then the in-bounds-and-not-in-filter acceptance test.  Returns (yielded
variants, filter bits, next variant step). -/
def adv_inner (cfg : GenCfg) (hash : String → ℕ → ℕ) (hashCount size maxVar : ℕ)
    (varCont : ℕ → Bool) :
    List String → List ℕ → ℕ → ℕ → List String × List ℕ × ℕ
  | [], bits, step, _ => ([], bits, step)
  | v :: vs, bits, step, vcount =>
    if varCont step = true then
      if maxVar ≤ vcount then ([], bits, step + 1)
      else if length_ok cfg.min_length cfg.max_length v = true ∧
          bloom_contains hash hashCount size bits v = false then
        let r := adv_inner cfg hash hashCount size maxVar varCont vs
          (bloom_add hash hashCount size bits v) (step + 1) (vcount + 1)
        (v :: r.1, r.2)
      else
        adv_inner cfg hash hashCount size maxVar varCont vs bits (step + 1) vcount
    else ([], bits, step + 1)

/-- Outer loop of the Exhaustive engine over the seeds: the per-seed resource
check (`break` ends the run), a fresh per-seed variation counter, then the
inner loop; the Bloom filter bits persist across seeds.  The per-seed variant
stream is a parameter `vf` so that theorems cover every iteration order of
the underlying Python set. -/
def adv_outer (cfg : GenCfg) (vf : String → List String)
    (hash : String → ℕ → ℕ) (hashCount size maxVar : ℕ)
    (wordCont varCont : ℕ → Bool) :
    List String → List ℕ → ℕ → ℕ → List String
  | [], _, _, _ => []
  | w :: ws, bits, step, widx =>
    if wordCont widx = true then
      let r := adv_inner cfg hash hashCount size maxVar varCont (vf w) bits step 0
      r.1 ++ adv_outer cfg vf hash hashCount size maxVar wordCont varCont ws
        r.2.1 r.2.2 (widx + 1)
    else []

/-- `AdvancedWordlistGenerator.generate_with_callback`: the sequence of
yielded candidates of one run, starting from an empty Bloom filter. -/
def advanced_generate (cfg : GenCfg) (vf : String → List String)
    (hash : String → ℕ → ℕ) (hashCount size maxVar : ℕ)
    (seeds : List String) (wordCont varCont : ℕ → Bool) : List String :=
  adv_outer cfg vf hash hashCount size maxVar wordCont varCont seeds [] 0 0

/-! ### Lemmas about the Compact engine -/

theorem length_ok_iff (minL maxL : ℕ) (w : String) :
    length_ok minL maxL w = true ↔ minL ≤ w.length ∧ w.length ≤ maxL := by
  simp [length_ok]

theorem basic_inner_spec (cfg : GenCfg) (vc : ℕ → Bool) :
    ∀ (vs seen : List String) (step : ℕ),
      (basic_inner cfg vc vs seen step).1.Nodup ∧
      (∀ y ∈ (basic_inner cfg vc vs seen step).1,
        y ∉ seen ∧ length_ok cfg.min_length cfg.max_length y = true) ∧
      (∀ x, x ∈ (basic_inner cfg vc vs seen step).2.1 ↔
        x ∈ seen ∨ x ∈ (basic_inner cfg vc vs seen step).1) := by
  intro vs
  induction vs with
  | nil => intro seen step; simp [basic_inner]
  | cons v vs ih =>
    intro seen step
    by_cases hv : vc step = true
    · by_cases hacc : v ∉ seen ∧ length_ok cfg.min_length cfg.max_length v = true
      · obtain ⟨hnd, hfresh, hseen⟩ := ih (v :: seen) (step + 1)
        have heq : basic_inner cfg vc (v :: vs) seen step =
            ((v :: (basic_inner cfg vc vs (v :: seen) (step + 1)).1),
             (basic_inner cfg vc vs (v :: seen) (step + 1)).2) := by
          simp [basic_inner, hv, hacc]
        rw [heq]
        refine ⟨?_, ?_, ?_⟩
        · refine List.nodup_cons.2 ⟨?_, hnd⟩
          intro hmem
          exact (hfresh v hmem).1 (List.mem_cons_self v seen)
        · intro y hy
          rcases List.mem_cons.1 hy with h | h
          · subst h; exact ⟨hacc.1, hacc.2⟩
          · have := hfresh y h
            exact ⟨fun hs => this.1 (List.mem_cons_of_mem v hs), this.2⟩
        · intro x
          rw [hseen x]
          constructor
          · rintro (hx | hx)
            · rcases List.mem_cons.1 hx with h | h
              · exact Or.inr (by simp [h])
              · exact Or.inl h
            · exact Or.inr (List.mem_cons_of_mem v hx)
          · rintro (hx | hx)
            · exact Or.inl (List.mem_cons_of_mem v hx)
            · rcases List.mem_cons.1 hx with h | h
              · exact Or.inl (by simp [h])
              · exact Or.inr h
      · obtain ⟨hnd, hfresh, hseen⟩ := ih seen (step + 1)
        have heq : basic_inner cfg vc (v :: vs) seen step =
            basic_inner cfg vc vs seen (step + 1) := by
          simp only [basic_inner, if_pos hv, if_neg hacc]
        rw [heq]
        exact ⟨hnd, hfresh, hseen⟩
    · have heq : basic_inner cfg vc (v :: vs) seen step = ([], seen, step + 1) := by
        simp only [basic_inner, if_neg hv]
      rw [heq]
      simp

theorem basic_outer_spec (cfg : GenCfg) (wc vc : ℕ → Bool) :
    ∀ (ws seen : List String) (step widx : ℕ),
      (basic_outer cfg wc vc ws seen step widx).Nodup ∧
      (∀ y ∈ basic_outer cfg wc vc ws seen step widx,
        y ∉ seen ∧ length_ok cfg.min_length cfg.max_length y = true) := by
  intro ws
  induction ws with
  | nil => intro seen step widx; simp [basic_outer]
  | cons w ws ih =>
    intro seen step widx
    by_cases hw : wc widx = true
    · have heq : basic_outer cfg wc vc (w :: ws) seen step widx =
          (basic_inner cfg vc (generate_efficient_variations cfg w) seen step).1
          ++ basic_outer cfg wc vc ws
            (basic_inner cfg vc (generate_efficient_variations cfg w) seen step).2.1
            (basic_inner cfg vc (generate_efficient_variations cfg w) seen step).2.2
            (widx + 1) := by
        simp [basic_outer, hw]
      obtain ⟨hnd1, hfresh1, hseen1⟩ :=
        basic_inner_spec cfg vc (generate_efficient_variations cfg w) seen step
      obtain ⟨hnd2, hfresh2⟩ := ih
        (basic_inner cfg vc (generate_efficient_variations cfg w) seen step).2.1
        (basic_inner cfg vc (generate_efficient_variations cfg w) seen step).2.2
        (widx + 1)
      rw [heq]
      constructor
      · refine List.Nodup.append hnd1 hnd2 ?_
        intro x hx1 hx2
        exact (hfresh2 x hx2).1 ((hseen1 x).2 (Or.inr hx1))
      · intro y hy
        rcases List.mem_append.1 hy with h | h
        · exact hfresh1 y h
        · have := hfresh2 y h
          refine ⟨fun hs => this.1 ((hseen1 y).2 (Or.inl hs)), this.2⟩
    · have heq : basic_outer cfg wc vc (w :: ws) seen step widx = [] := by
        simp only [basic_outer, if_neg hw]
      rw [heq]
      simp

/-! ### Lemmas about the Bloom filter and the Exhaustive engine -/

theorem bloom_contains_add_self (hash : String → ℕ → ℕ) (hashCount size : ℕ)
    (bits : List ℕ) (item : String) :
    bloom_contains hash hashCount size (bloom_add hash hashCount size bits item)
      item = true := by
  simp only [bloom_contains, bloom_add, List.all_eq_true]
  intro p hp
  exact List.elem_iff.2 (List.mem_append.2 (Or.inr hp))

theorem bloom_contains_mono (hash : String → ℕ → ℕ) (hashCount size : ℕ)
    (bits bits2 : List ℕ) (item : String)
    (hsub : ∀ p, p ∈ bits → p ∈ bits2)
    (h : bloom_contains hash hashCount size bits item = true) :
    bloom_contains hash hashCount size bits2 item = true := by
  simp only [bloom_contains, List.all_eq_true] at *
  intro p hp
  exact List.elem_iff.2 (hsub p (List.elem_iff.1 (h p hp)))

theorem adv_inner_spec (cfg : GenCfg) (hash : String → ℕ → ℕ)
    (hashCount size maxVar : ℕ) (vc : ℕ → Bool) :
    ∀ (vs : List String) (bits : List ℕ) (step vcount : ℕ),
      (∀ p ∈ bits, p ∈ (adv_inner cfg hash hashCount size maxVar vc vs bits step vcount).2.1) ∧
      (∀ y ∈ (adv_inner cfg hash hashCount size maxVar vc vs bits step vcount).1,
        bloom_contains hash hashCount size
          (adv_inner cfg hash hashCount size maxVar vc vs bits step vcount).2.1 y = true) ∧
      (∀ y ∈ (adv_inner cfg hash hashCount size maxVar vc vs bits step vcount).1,
        bloom_contains hash hashCount size bits y = false ∧
        length_ok cfg.min_length cfg.max_length y = true) ∧
      (adv_inner cfg hash hashCount size maxVar vc vs bits step vcount).1.Nodup := by
  intro vs
  induction vs with
  | nil => intro bits step vcount; simp [adv_inner]
  | cons v vs ih =>
    intro bits step vcount
    by_cases hv : vc step = true
    · by_cases hcap : maxVar ≤ vcount
      · have heq : adv_inner cfg hash hashCount size maxVar vc (v :: vs) bits step vcount
            = ([], bits, step + 1) := by
          simp only [adv_inner, if_pos hv, if_pos hcap]
        rw [heq]; simp
      · by_cases hacc : length_ok cfg.min_length cfg.max_length v = true ∧
            bloom_contains hash hashCount size bits v = false
        · obtain ⟨hgrow, hin, hfresh, hnd⟩ := ih
            (bloom_add hash hashCount size bits v) (step + 1) (vcount + 1)
          have heq : adv_inner cfg hash hashCount size maxVar vc (v :: vs) bits step vcount
              = ((v :: (adv_inner cfg hash hashCount size maxVar vc vs
                  (bloom_add hash hashCount size bits v) (step + 1) (vcount + 1)).1),
                 (adv_inner cfg hash hashCount size maxVar vc vs
                  (bloom_add hash hashCount size bits v) (step + 1) (vcount + 1)).2) := by
            simp only [adv_inner, if_pos hv, if_neg hcap, if_pos hacc]
          rw [heq]
          have hgrow0 : ∀ p ∈ bits, p ∈ (adv_inner cfg hash hashCount size maxVar vc vs
              (bloom_add hash hashCount size bits v) (step + 1) (vcount + 1)).2.1 := by
            intro p hp
            exact hgrow p (List.mem_append.2 (Or.inl hp))
          refine ⟨hgrow0, ?_, ?_, ?_⟩
          · intro y hy
            rcases List.mem_cons.1 hy with h | h
            · subst h
              exact bloom_contains_mono hash hashCount size
                (bloom_add hash hashCount size bits y) _ y hgrow
                (bloom_contains_add_self hash hashCount size bits y)
            · exact hin y h
          · intro y hy
            rcases List.mem_cons.1 hy with h | h
            · subst h; exact ⟨hacc.2, hacc.1⟩
            · have hf := hfresh y h
              refine ⟨?_, hf.2⟩
              by_contra hcon
              have : bloom_contains hash hashCount size bits y = true := by
                cases hb : bloom_contains hash hashCount size bits y
                · exact absurd hb hcon
                · rfl
              have : bloom_contains hash hashCount size
                  (bloom_add hash hashCount size bits v) y = true :=
                bloom_contains_mono hash hashCount size bits _ y
                  (fun p hp => List.mem_append.2 (Or.inl hp)) this
              rw [hf.1] at this
              exact Bool.false_ne_true this
          · refine List.nodup_cons.2 ⟨?_, hnd⟩
            intro hmem
            have hf := hfresh v hmem
            have : bloom_contains hash hashCount size
                (bloom_add hash hashCount size bits v) v = true :=
              bloom_contains_add_self hash hashCount size bits v
            rw [hf.1] at this
            exact Bool.false_ne_true this
        · obtain ⟨hgrow, hin, hfresh, hnd⟩ := ih bits (step + 1) vcount
          have heq : adv_inner cfg hash hashCount size maxVar vc (v :: vs) bits step vcount
              = adv_inner cfg hash hashCount size maxVar vc vs bits (step + 1) vcount := by
            simp only [adv_inner, if_pos hv, if_neg hcap, if_neg hacc]
          rw [heq]
          exact ⟨hgrow, hin, hfresh, hnd⟩
    · have heq : adv_inner cfg hash hashCount size maxVar vc (v :: vs) bits step vcount
          = ([], bits, step + 1) := by
        simp only [adv_inner, if_neg hv]
      rw [heq]; simp

theorem adv_outer_spec (cfg : GenCfg) (vf : String → List String)
    (hash : String → ℕ → ℕ) (hashCount size maxVar : ℕ) (wc vc : ℕ → Bool) :
    ∀ (ws : List String) (bits : List ℕ) (step widx : ℕ),
      (adv_outer cfg vf hash hashCount size maxVar wc vc ws bits step widx).Nodup ∧
      (∀ y ∈ adv_outer cfg vf hash hashCount size maxVar wc vc ws bits step widx,
        bloom_contains hash hashCount size bits y = false ∧
        length_ok cfg.min_length cfg.max_length y = true) := by
  intro ws
  induction ws with
  | nil => intro bits step widx; simp [adv_outer]
  | cons w ws ih =>
    intro bits step widx
    by_cases hw : wc widx = true
    · have heq : adv_outer cfg vf hash hashCount size maxVar wc vc (w :: ws) bits step widx =
          (adv_inner cfg hash hashCount size maxVar vc (vf w) bits step 0).1
          ++ adv_outer cfg vf hash hashCount size maxVar wc vc ws
            (adv_inner cfg hash hashCount size maxVar vc (vf w) bits step 0).2.1
            (adv_inner cfg hash hashCount size maxVar vc (vf w) bits step 0).2.2
            (widx + 1) := by
        simp [adv_outer, hw]
      obtain ⟨hgrow, hin, hfresh, hnd1⟩ :=
        adv_inner_spec cfg hash hashCount size maxVar vc (vf w) bits step 0
      obtain ⟨hnd2, hfresh2⟩ := ih
        (adv_inner cfg hash hashCount size maxVar vc (vf w) bits step 0).2.1
        (adv_inner cfg hash hashCount size maxVar vc (vf w) bits step 0).2.2
        (widx + 1)
      rw [heq]
      constructor
      · refine List.Nodup.append hnd1 hnd2 ?_
        intro x hx1 hx2
        have h1 := hin x hx1
        have h2 := (hfresh2 x hx2).1
        rw [h2] at h1
        exact Bool.false_ne_true h1
      · intro y hy
        rcases List.mem_append.1 hy with h | h
        · exact hfresh y h
        · have h2 := hfresh2 y h
          refine ⟨?_, h2.2⟩
          by_contra hcon
          have hyt : bloom_contains hash hashCount size bits y = true := by
            cases hb : bloom_contains hash hashCount size bits y
            · exact absurd hb hcon
            · rfl
          have := bloom_contains_mono hash hashCount size bits _ y hgrow hyt
          rw [h2.1] at this
          exact Bool.false_ne_true this
    · have heq : adv_outer cfg vf hash hashCount size maxVar wc vc (w :: ws) bits step widx
          = [] := by
        simp only [adv_outer, if_neg hw]
      rw [heq]
      simp

/-! ### Lemmas for runs with all feature toggles disabled -/

theorem efficient_variations_off (cfg : GenCfg) (word : String)
    (h1 : cfg.enable_leet = false) (h2 : cfg.enable_capitals = false)
    (h3 : cfg.append_numbers = false) (h4 : cfg.prepend_numbers = false)
    (h5 : cfg.special_chars = false) :
    generate_efficient_variations cfg word = [word] := by
  simp [generate_efficient_variations, h1, h2, h3, h4, h5]

theorem optimized_variations_off (cfg : GenCfg) (maxVar : ℕ) (word : String)
    (h1 : cfg.enable_leet = false) (h2 : cfg.enable_capitals = false)
    (h3 : cfg.append_numbers = false) (h4 : cfg.prepend_numbers = false)
    (h5 : cfg.special_chars = false) (hmax : 1 ≤ maxVar) :
    generate_optimized_variations cfg maxVar word = [word] := by
  simp only [generate_optimized_variations, h1, h2, h3, h4, h5, Bool.false_or,
    if_neg Bool.false_ne_true, List.append_nil, ite_false]
  rw [List.dedup_eq_self.2 (List.nodup_singleton word),
    List.dedup_eq_self.2 (List.nodup_singleton word),
    List.dedup_eq_self.2 (List.nodup_singleton word)]
  exact List.take_of_length_le (by simpa using hmax)

theorem basic_outer_off (cfg : GenCfg)
    (h1 : cfg.enable_leet = false) (h2 : cfg.enable_capitals = false)
    (h3 : cfg.append_numbers = false) (h4 : cfg.prepend_numbers = false)
    (h5 : cfg.special_chars = false) :
    ∀ (ws seen : List String) (step widx : ℕ), ws.Nodup →
      (∀ x ∈ ws, x ∉ seen) →
      basic_outer cfg (fun _ => true) (fun _ => true) ws seen step widx =
        ws.filter (length_ok cfg.min_length cfg.max_length) := by
  intro ws
  induction ws with
  | nil => intro seen step widx _ _; simp [basic_outer]
  | cons w ws ih =>
    intro seen step widx hnd hfresh
    have hw : w ∉ seen := hfresh w (List.mem_cons_self w ws)
    have hvar := efficient_variations_off cfg w h1 h2 h3 h4 h5
    by_cases hlen : length_ok cfg.min_length cfg.max_length w = true
    · have hinner : basic_inner cfg (fun _ => true) [w] seen step =
          ([w], w :: seen, step + 1) := by
        simp [basic_inner, hw, hlen]
      have heq : basic_outer cfg (fun _ => true) (fun _ => true) (w :: ws) seen step widx
          = [w] ++ basic_outer cfg (fun _ => true) (fun _ => true) ws (w :: seen)
              (step + 1) (widx + 1) := by
        simp [basic_outer, hvar, hinner]
      rw [heq, ih (w :: seen) (step + 1) (widx + 1) (List.Nodup.of_cons hnd)
        (fun x hx => by
          intro hmem
          rcases List.mem_cons.1 hmem with h | h
          · exact (List.nodup_cons.1 hnd).1 (h ▸ hx)
          · exact hfresh x (List.mem_cons_of_mem w hx) h)]
      simp [List.filter_cons, hlen]
    · have hinner : basic_inner cfg (fun _ => true) [w] seen step =
          ([], seen, step + 1) := by
        simp [basic_inner, hlen]
      have heq : basic_outer cfg (fun _ => true) (fun _ => true) (w :: ws) seen step widx
          = [] ++ basic_outer cfg (fun _ => true) (fun _ => true) ws seen
              (step + 1) (widx + 1) := by
        simp [basic_outer, hvar, hinner]
      rw [heq, ih seen (step + 1) (widx + 1) (List.Nodup.of_cons hnd)
        (fun x hx => hfresh x (List.mem_cons_of_mem w hx))]
      simp [List.filter_cons, hlen]

theorem adv_outer_single (cfg : GenCfg) (hash : String → ℕ → ℕ)
    (hashCount size maxVar : ℕ) (wc vc : ℕ → Bool) (hmax : 1 ≤ maxVar) :
    ∀ (ws : List String) (bits : List ℕ) (step widx : ℕ),
      List.Sublist
        (adv_outer cfg (fun w => [w]) hash hashCount size maxVar wc vc ws bits step widx)
        (ws.filter (length_ok cfg.min_length cfg.max_length)) := by
  intro ws
  induction ws with
  | nil => intro bits step widx; simp [adv_outer]
  | cons w ws ih =>
    intro bits step widx
    by_cases hw : wc widx = true
    · have heq : adv_outer cfg (fun w => [w]) hash hashCount size maxVar wc vc
          (w :: ws) bits step widx =
          (adv_inner cfg hash hashCount size maxVar vc [w] bits step 0).1
          ++ adv_outer cfg (fun w => [w]) hash hashCount size maxVar wc vc ws
            (adv_inner cfg hash hashCount size maxVar vc [w] bits step 0).2.1
            (adv_inner cfg hash hashCount size maxVar vc [w] bits step 0).2.2
            (widx + 1) := by
        simp [adv_outer, hw]
      rw [heq]
      have hcap : ¬ maxVar ≤ 0 := by omega
      have hstep : List.Sublist (ws.filter (length_ok cfg.min_length cfg.max_length))
          ((w :: ws).filter (length_ok cfg.min_length cfg.max_length)) := by
        by_cases hl : length_ok cfg.min_length cfg.max_length w = true
        · simp only [List.filter_cons, hl, if_pos]
          exact List.sublist_cons_self w _
        · simp [List.filter_cons, hl]
      by_cases hv : vc step = true
      · by_cases hacc : length_ok cfg.min_length cfg.max_length w = true ∧
            bloom_contains hash hashCount size bits w = false
        · have hinner : adv_inner cfg hash hashCount size maxVar vc [w] bits step 0 =
              ([w], bloom_add hash hashCount size bits w, step + 1) := by
            simp [adv_inner, hv, hcap, hacc]
          rw [hinner]
          have hfilter : (w :: ws).filter (length_ok cfg.min_length cfg.max_length)
              = w :: ws.filter (length_ok cfg.min_length cfg.max_length) := by
            simp [List.filter_cons, hacc.1]
          rw [hfilter]
          exact List.Sublist.cons₂ w (ih _ _ _)
        · have hinner : adv_inner cfg hash hashCount size maxVar vc [w] bits step 0 =
              ([], bits, step + 1) := by
            simp only [adv_inner, if_pos hv, if_neg hcap, if_neg hacc]
          rw [hinner, List.nil_append]
          exact (ih _ _ _).trans hstep
      · have hinner : adv_inner cfg hash hashCount size maxVar vc [w] bits step 0 =
            ([], bits, step + 1) := by
          simp [adv_inner, hv]
        rw [hinner, List.nil_append]
        exact (ih _ _ _).trans hstep
    · have heq : adv_outer cfg (fun w => [w]) hash hashCount size maxVar wc vc
          (w :: ws) bits step widx = [] := by
        simp only [adv_outer, if_neg hw]
      rw [heq]
      exact List.nil_sublist _

/-! ### Lemmas about the Name Seed Builder -/

theorem ne_empty_data (s : String) (h : s ≠ "") : ∃ c cs, s.data = c :: cs := by
  cases s with
  | mk data =>
    cases data with
    | nil => exact absurd rfl h
    | cons c cs => exact ⟨c, cs, rfl⟩

theorem py_index0_ok (s : String) (h : s ≠ "") :
    ∃ c, py_index0 s = Except.ok c := by
  obtain ⟨c, cs, hd⟩ := ne_empty_data s h
  exact ⟨c, by simp [py_index0, hd]⟩

theorem generate_smart_name_combinations_index_error (f l mn : String)
    (minL maxL : ℕ) (hm : mn ≠ "") (hfl : f = "" ∨ l = "") :
    generate_smart_name_combinations f l (some mn) minL maxL =
      Except.error "IndexError" := by
  obtain ⟨m0, hm0⟩ := py_index0_ok mn hm
  rcases hfl with hf | hl
  · have hmain : ¬ (f ≠ "" ∧ l ≠ "") := by
      intro hcon; exact hcon.1 hf
    have hf0 : py_index0 f = Except.error "IndexError" := by
      rw [hf]; rfl
    simp [generate_smart_name_combinations, hmain, hm, hm0, hf0, bind, Except.bind, Functor.map, Except.map, pure, Except.pure]
  · by_cases hf : f = ""
    · have hmain : ¬ (f ≠ "" ∧ l ≠ "") := by
        intro hcon; exact hcon.1 hf
      have hf0 : py_index0 f = Except.error "IndexError" := by
        rw [hf]; rfl
      simp [generate_smart_name_combinations, hmain, hm, hm0, hf0, bind, Except.bind, Functor.map, Except.map, pure, Except.pure]
    · have hmain : ¬ (f ≠ "" ∧ l ≠ "") := by
        intro hcon; exact hcon.2 hl
      obtain ⟨f0, hf0⟩ := py_index0_ok f hf
      have hl0 : py_index0 l = Except.error "IndexError" := by
        rw [hl]; rfl
      simp [generate_smart_name_combinations, hmain, hm, hm0, hf0, hl0, bind, Except.bind, Functor.map, Except.map, pure, Except.pure]

/-! ### Lemmas about the Bloom filter sizing formulas -/

theorem optimal_size_arg_at_thirtysecond :
    -(((1 : ℕ) : ℝ) * Real.log (1 / 32)) / (Real.log 2) ^ 2 = 5 / Real.log 2 := by
  have hne : Real.log 2 ≠ 0 := ne_of_gt (Real.log_pos (by norm_num))
  have h32 : (32 : ℝ) = 2 ^ 5 := by norm_num
  rw [Nat.cast_one, one_mul, one_div, Real.log_inv, h32, Real.log_pow, neg_neg]
  rw [pow_two, div_mul_eq_div_div, mul_div_assoc, div_self hne, mul_one]
  norm_num

theorem floor_five_div_log_two : Int.floor ((5 : ℝ) / Real.log 2) = 7 := by
  have hpos : (0 : ℝ) < Real.log 2 := Real.log_pos (by norm_num)
  have hlb : (0.6931471803 : ℝ) < Real.log 2 := Real.log_two_gt_d9
  have hub : Real.log 2 < 0.6931471808 := Real.log_two_lt_d9
  rw [Int.floor_eq_iff]
  constructor
  · push_cast
    rw [le_div_iff₀ hpos]
    linarith
  · push_cast
    rw [div_lt_iff₀ hpos]
    linarith

theorem ceil_five_div_log_two : Int.ceil ((5 : ℝ) / Real.log 2) = 8 := by
  have hpos : (0 : ℝ) < Real.log 2 := Real.log_pos (by norm_num)
  have hlb : (0.6931471803 : ℝ) < Real.log 2 := Real.log_two_gt_d9
  have hub : Real.log 2 < 0.6931471808 := Real.log_two_lt_d9
  rw [Int.ceil_eq_iff]
  constructor
  · push_cast
    rw [lt_div_iff₀ hpos]
    linarith
  · push_cast
    rw [div_le_iff₀ hpos]
    linarith

theorem floor_seven_mul_log_two : Int.floor ((7 : ℝ) * Real.log 2) = 4 := by
  have hlb : (0.6931471803 : ℝ) < Real.log 2 := Real.log_two_gt_d9
  have hub : Real.log 2 < 0.6931471808 := Real.log_two_lt_d9
  rw [Int.floor_eq_iff]
  constructor
  · push_cast
    linarith
  · push_cast
    linarith

theorem round_seven_mul_log_two : round ((7 : ℝ) * Real.log 2) = 5 := by
  have hlb : (0.6931471803 : ℝ) < Real.log 2 := Real.log_two_gt_d9
  have hub : Real.log 2 < 0.6931471808 := Real.log_two_lt_d9
  rw [round_eq, Int.floor_eq_iff]
  constructor
  · push_cast
    linarith
  · push_cast
    linarith

/-! ### Lemmas about transform output lengths -/

theorem digit_strings_length : ∀ d ∈ digit_strings, d.length = 1 := by decide

theorem tens_strings_length : ∀ d ∈ tens_strings, d.length = 2 := by decide

theorem special_chars_adv_length : ∀ c ∈ special_chars_adv, c.length = 1 := by
  decide

theorem mem_ite_singleton {c : Prop} [Decidable c] {w x : String}
    (h : w ∈ (if c then [x] else ([] : List String))) : c ∧ w = x := by
  split_ifs at h with hc
  · exact ⟨hc, by simpa using h⟩
  · simp at h

/-! ### The claims -/

/-- Claim C1: for every run of either engine variant, every candidate yielded
by `generate_with_callback` satisfies
`min_length <= len(w) <= max_length`. -/
theorem c1_bounded_length (cfg : GenCfg) (seeds : List String)
    (wordCont varCont : ℕ → Bool) (vf : String → List String)
    (hash : String → ℕ → ℕ) (hashCount size maxVar : ℕ) (w : String) :
    (w ∈ basic_generate cfg seeds wordCont varCont →
      cfg.min_length ≤ w.length ∧ w.length ≤ cfg.max_length) ∧
    (w ∈ advanced_generate cfg vf hash hashCount size maxVar seeds wordCont varCont →
      cfg.min_length ≤ w.length ∧ w.length ≤ cfg.max_length) := by
  constructor
  · intro hw
    have h := (basic_outer_spec cfg wordCont varCont seeds [] 0 0).2 w hw
    exact (length_ok_iff _ _ w).1 h.2
  · intro hw
    have h := (adv_outer_spec cfg vf hash hashCount size maxVar wordCont varCont
      seeds [] 0 0).2 w hw
    exact (length_ok_iff _ _ w).1 h.2

/-- Witness for C1: a concrete run of each engine yields `"alice"`, whose
length lies within the configured bounds 3 and 15. -/
theorem c1_bounded_length_witness :
    ("alice" ∈ basic_generate ⟨3, 15, false, false, false, false, false⟩ ["alice"]
        (fun _ => true) (fun _ => true) ∧
      3 ≤ ("alice" : String).length ∧ ("alice" : String).length ≤ 15) ∧
    ("alice" ∈ advanced_generate ⟨3, 15, false, false, false, false, false⟩
        (fun w => [w]) (fun _ _ => 0) 1 8 500 ["alice"]
        (fun _ => true) (fun _ => true) ∧
      3 ≤ ("alice" : String).length ∧ ("alice" : String).length ≤ 15) := by
  refine ⟨⟨by decide, ?_⟩, ⟨by decide, ?_⟩⟩
  · exact (c1_bounded_length ⟨3, 15, false, false, false, false, false⟩ ["alice"]
      (fun _ => true) (fun _ => true) (fun w => [w]) (fun _ _ => 0) 1 8 500
      "alice").1 (by decide)
  · exact (c1_bounded_length ⟨3, 15, false, false, false, false, false⟩ ["alice"]
      (fun _ => true) (fun _ => true) (fun w => [w]) (fun _ _ => 0) 1 8 500
      "alice").2 (by decide)

/-- Claim C2: for every run of the Compact engine, the sequence of yielded
candidates contains no repeated element. -/
theorem c2_unique_basic (cfg : GenCfg) (seeds : List String)
    (wordCont varCont : ℕ → Bool) :
    (basic_generate cfg seeds wordCont varCont).Nodup :=
  (basic_outer_spec cfg wordCont varCont seeds [] 0 0).1

/-- Claim C3: the Exhaustive engine never yields a candidate equal to one it
has already yielded in the same run, because `BloomFilter.contains(x)`
returns true for every `x` previously passed to `BloomFilter.add(x)` — for
every hash family, filter geometry, variant stream and resource-check
outcome. -/
theorem c3_no_false_negatives (cfg : GenCfg) (vf : String → List String)
    (hash : String → ℕ → ℕ) (hashCount size maxVar : ℕ) (seeds : List String)
    (wordCont varCont : ℕ → Bool) :
    (advanced_generate cfg vf hash hashCount size maxVar seeds wordCont varCont).Nodup ∧
    (∀ (bits : List ℕ) (item : String),
      bloom_contains hash hashCount size (bloom_add hash hashCount size bits item)
        item = true) :=
  ⟨(adv_outer_spec cfg vf hash hashCount size maxVar wordCont varCont seeds [] 0 0).1,
   fun bits item => bloom_contains_add_self hash hashCount size bits item⟩

/-- Claim C4 (the code contradicts it): constructing an engine whose first
name is empty after normalization completes without raising anything — the
constructor performs no validation — and returns the seed set derived from
the remaining name, contradicting the spec's configuration error and the
repository's own `test_basic.py` `test_empty_names`, which asserts the
construction raises. -/
theorem c4_empty_name_accepted :
    base_generator_init "" "doe" none 3 15 = Except.ok ["doe", "DOE", "Doe"] :=
  rfl

/-- Claim C8: for names "alice"/"smith" with the default bounds 3 and 15,
the Seed Set contains "alice", "smith" and "alicesmith". -/
theorem c8_seed_inclusion :
    "alice" ∈ seed_list "alice" "smith" none 3 15 ∧
    "smith" ∈ seed_list "alice" "smith" none 3 15 ∧
    "alicesmith" ∈ seed_list "alice" "smith" none 3 15 := by
  decide

/-- Claim C9: when psutil is unavailable every Resource Governor check
returns "continue" — `should_continue` and
`_should_continue_generation` are true regardless of the sampled values —
and `get_statistics` exposes the degraded mode through its
`performance_monitoring` capability flag. -/
theorem c9_degraded_mode (rssMb maxMemoryMb peakMemoryMb : ℚ)
    (baseCombinations totalGenerated duplicatesPrevented minL maxL : ℕ) :
    should_continue false rssMb maxMemoryMb = true ∧
    should_continue_generation false rssMb peakMemoryMb = true ∧
    (get_statistics false baseCombinations totalGenerated duplicatesPrevented
      minL maxL).performance_monitoring = false :=
  ⟨rfl, rfl, rfl⟩

/-- Claim C10: whenever the middle name is non-empty and the first or last
name normalizes to the empty string, engine construction fails with an
unhandled IndexError raised by the middle-name combination step, so no seed
set is produced. -/
theorem c10_middle_name_index_error (first last middle : String) (minL maxL : ℕ)
    (hmid : py_lower (py_strip middle) ≠ "") (hne : middle ≠ "")
    (hfl : py_lower (py_strip first) = "" ∨ py_lower (py_strip last) = "") :
    base_generator_init first last (some middle) minL maxL =
      Except.error "IndexError" := by
  have heq : base_generator_init first last (some middle) minL maxL =
      generate_smart_name_combinations (py_lower (py_strip first))
        (py_lower (py_strip last)) (some (py_lower (py_strip middle))) minL maxL := by
    simp [base_generator_init, hne]
  rw [heq]
  exact generate_smart_name_combinations_index_error _ _ _ minL maxL hmid hfl

/-- Witness for C10: with an empty first name, last name "smith" and middle
name "x", construction evaluates to the IndexError. -/
theorem c10_middle_name_index_error_witness :
    (py_lower (py_strip "x") ≠ "" ∧ ("x" : String) ≠ "" ∧
      py_lower (py_strip "") = "") ∧
    base_generator_init "" "smith" (some "x") 3 15 =
      Except.error "IndexError" :=
  ⟨⟨by decide, by decide, by decide⟩,
   c10_middle_name_index_error "" "smith" "x" 3 15 (by decide) (by decide)
     (Or.inl (by decide))⟩

/-- Claim C5 is false as stated: `smart_number_append` applied to a
20-character word yields a 21-character string — the single-digit variants
are not filtered against the 20-character cap. -/
theorem c5_counterexample :
    "aaaaaaaaaaaaaaaaaaaa0" ∈ smart_number_append "aaaaaaaaaaaaaaaaaaaa" ∧
    internal_cap < ("aaaaaaaaaaaaaaaaaaaa0" : String).length := by
  decide

/-- Claim C5 as amended: every number-append, number-prepend and
special-character variant has length at most `max 20 (len(word) + 2)` — the
20-character cap is enforced only on the multi-character-token variants,
while the unguarded single-digit, tens-step and Exhaustive special-character
variants extend the word by at most two characters. -/
theorem c5_amended (word w : String)
    (h : w ∈ smart_number_append word ∨ w ∈ smart_number_prepend word ∨
      w ∈ smart_special_chars word ∨ w ∈ optimized_number_append word ∨
      w ∈ optimized_number_prepend word ∨ w ∈ optimized_special_chars word) :
    w.length ≤ max internal_cap (word.length + 2) := by
  rcases h with h | h | h | h | h | h
  · simp only [smart_number_append, List.mem_append, List.mem_map,
      List.mem_filter] at h
    rcases h with ⟨n, ⟨hn, hg⟩, rfl⟩ | ⟨d, hd, rfl⟩
    · exact le_max_of_le_left (by simpa using hg)
    · refine le_max_of_le_right ?_
      rw [String.length_append, digit_strings_length d hd]
      omega
  · simp only [smart_number_prepend, List.mem_append, List.mem_map,
      List.mem_filter] at h
    rcases h with ⟨n, ⟨hn, hg⟩, rfl⟩ | ⟨d, hd, rfl⟩
    · exact le_max_of_le_left (by simpa using hg)
    · refine le_max_of_le_right ?_
      rw [String.length_append, digit_strings_length d (List.take_subset 5 _ hd)]
      omega
  · simp only [smart_special_chars, List.mem_flatMap] at h
    obtain ⟨c, hc, hw⟩ := h
    rcases List.mem_append.1 hw with h2 | h2
    · obtain ⟨hg, rfl⟩ := mem_ite_singleton h2
      exact le_max_of_le_left (by simpa using hg)
    · obtain ⟨hg, rfl⟩ := mem_ite_singleton h2
      exact le_max_of_le_left (by simpa using hg)
  · simp only [optimized_number_append, List.mem_append, List.mem_map,
      List.mem_filter] at h
    rcases h with ((⟨n, ⟨hn, hg⟩, rfl⟩ | ⟨n, ⟨hn, hg⟩, rfl⟩) | ⟨d, hd, rfl⟩) | ⟨d, hd, rfl⟩
    · exact le_max_of_le_left (by simpa using hg)
    · exact le_max_of_le_left (by simpa using hg)
    · refine le_max_of_le_right ?_
      rw [String.length_append, digit_strings_length d hd]
      omega
    · refine le_max_of_le_right ?_
      rw [String.length_append, tens_strings_length d hd]
  · simp only [optimized_number_prepend, List.mem_append, List.mem_map,
      List.mem_filter] at h
    rcases h with (⟨n, ⟨hn, hg⟩, rfl⟩ | ⟨n, ⟨hn, hg⟩, rfl⟩) | ⟨d, hd, rfl⟩
    · exact le_max_of_le_left (by simpa using hg)
    · exact le_max_of_le_left (by simpa using hg)
    · refine le_max_of_le_right ?_
      rw [String.length_append, digit_strings_length d hd]
      omega
  · simp only [optimized_special_chars, List.mem_append, List.mem_flatMap,
      List.mem_map] at h
    rcases h with ⟨c, hc, hw⟩ | ⟨c1, hc1, c2, hc2, rfl⟩
    · have hcl : c.length = 1 := special_chars_adv_length c hc
      rcases hw with h2 | h2
      · rcases List.mem_cons.1 h2 with rfl | h3
        · refine le_max_of_le_right ?_
          rw [String.length_append, hcl]
          omega
        · rcases List.mem_cons.1 h3 with rfl | h4
          · refine le_max_of_le_right ?_
            rw [String.length_append, hcl]
            omega
          · simp at h4
      · obtain ⟨_, rfl⟩ := mem_ite_singleton h2
        refine le_max_of_le_right ?_
        rw [String.length_append, String.length_append, hcl]
        omega
    · have hc1l : c1.length = 1 :=
        special_chars_adv_length c1 (List.take_subset 2 _ hc1)
      have hc2l : c2.length = 1 :=
        special_chars_adv_length c2 (List.take_subset 2 _ hc2)
      refine le_max_of_le_right ?_
      rw [String.length_append, String.length_append, hc1l, hc2l]
      omega

/-- Witness for C5 as amended: `"ab1"` is a number-append variant of `"ab"`
and its length respects the amended bound. -/
theorem c5_amended_witness :
    ("ab1" ∈ smart_number_append "ab" ∨ "ab1" ∈ smart_number_prepend "ab" ∨
      "ab1" ∈ smart_special_chars "ab" ∨ "ab1" ∈ optimized_number_append "ab" ∨
      "ab1" ∈ optimized_number_prepend "ab" ∨
      "ab1" ∈ optimized_special_chars "ab") ∧
    ("ab1" : String).length ≤ max internal_cap (("ab" : String).length + 2) :=
  ⟨Or.inl (by decide), c5_amended "ab" "ab1" (Or.inl (by decide))⟩

/-- Claim C6 is false as stated: at `expected_items = 1` and
`false_positive_rate = 1/32` the constructor computes
`m = int(5/ln 2) = 7` while the claimed ceiling formula gives `8`, and
`k = max(1, int(7 * ln 2)) = 4` while the claimed rounding formula gives
`max(1, round(4.852)) = 5` (the value is nowhere near a half-integer, so
every rounding convention gives 5); both sizing formulas of the claim fail
at this one construction input. -/
theorem c6_counterexample :
    optimal_size 1 (1 / 32) = 7 ∧
    Int.ceil (-(((1 : ℕ) : ℝ) * Real.log (1 / 32)) / (Real.log 2) ^ 2) = 8 ∧
    optimal_hash_count 1 (optimal_size 1 (1 / 32)) = 4 ∧
    max 1 (round (((optimal_size 1 (1 / 32) : ℝ) / ((1 : ℕ) : ℝ)) * Real.log 2))
      = 5 ∧
    optimal_size 1 (1 / 32) ≠
      Int.ceil (-(((1 : ℕ) : ℝ) * Real.log (1 / 32)) / (Real.log 2) ^ 2) ∧
    optimal_hash_count 1 (optimal_size 1 (1 / 32)) ≠
      max 1 (round (((optimal_size 1 (1 / 32) : ℝ) / ((1 : ℕ) : ℝ)) *
        Real.log 2)) := by
  have hpos : (0 : ℝ) < Real.log 2 := Real.log_pos (by norm_num)
  have hm : optimal_size 1 (1 / 32) = 7 := by
    unfold optimal_size py_int
    rw [optimal_size_arg_at_thirtysecond,
      if_pos (div_nonneg (by norm_num) (le_of_lt hpos))]
    exact floor_five_div_log_two
  have hceil : Int.ceil (-(((1 : ℕ) : ℝ) * Real.log (1 / 32)) / (Real.log 2) ^ 2)
      = 8 := by
    rw [optimal_size_arg_at_thirtysecond]
    exact ceil_five_div_log_two
  have hargk : (((7 : ℤ) : ℝ) / ((1 : ℕ) : ℝ)) * Real.log 2 = 7 * Real.log 2 := by
    norm_num
  have hk : optimal_hash_count 1 7 = 4 := by
    unfold optimal_hash_count py_int
    rw [hargk, if_pos (mul_nonneg (by norm_num) (le_of_lt hpos)),
      floor_seven_mul_log_two]
    decide
  have hround : max 1 (round (((7 : ℤ) : ℝ) / ((1 : ℕ) : ℝ) * Real.log 2))
      = (5 : ℤ) := by
    rw [hargk, round_seven_mul_log_two]
    decide
  refine ⟨hm, hceil, ?_, ?_, ?_, ?_⟩
  · rw [hm]; exact hk
  · rw [hm]; exact hround
  · rw [hm, hceil]; decide
  · rw [hm, hk, hround]; decide

/-- Claim C6 as amended: for `n ≥ 1` and `0 < p < 1` the constructor
computes the bit-array size by truncating (flooring) the optimal-size
formula rather than taking its ceiling; for `n ≥ 1` and a non-negative
size `m` it computes the hash-function count as
`max(1, trunc((m/n) * ln 2))` — truncation rather than rounding; and
`add(item)` sets exactly the positions `hash(item, i) mod size` for `i`
below `hash_count`, on top of the already-set bits. -/
theorem c6_amended :
    (∀ (n : ℕ) (p : ℝ), 1 ≤ n → 0 < p → p < 1 →
      optimal_size n p =
        Int.floor (-((n : ℝ) * Real.log p) / (Real.log 2) ^ 2)) ∧
    (∀ (n : ℕ) (m : ℤ), 1 ≤ n → 0 ≤ m →
      optimal_hash_count n m =
        max 1 (Int.floor (((m : ℝ) / (n : ℝ)) * Real.log 2))) ∧
    (∀ (hash : String → ℕ → ℕ) (hashCount size : ℕ) (bits : List ℕ)
        (item : String) (j : ℕ),
      j ∈ bloom_add hash hashCount size bits item ↔
        j ∈ bits ∨ ∃ i, i < hashCount ∧ hash item i % size = j) := by
  refine ⟨?_, ?_, ?_⟩
  · intro n p _ hp hp1
    unfold optimal_size py_int
    rw [if_pos]
    have hlog : Real.log p < 0 := Real.log_neg hp hp1
    have hn0 : (0 : ℝ) ≤ (n : ℝ) := Nat.cast_nonneg n
    have hnum : 0 ≤ -((n : ℝ) * Real.log p) := by nlinarith
    have hden : (0 : ℝ) < (Real.log 2) ^ 2 :=
      pow_pos (Real.log_pos (by norm_num)) 2
    exact div_nonneg hnum (le_of_lt hden)
  · intro n m hn hm
    unfold optimal_hash_count py_int
    rw [if_pos]
    have hm0 : (0 : ℝ) ≤ (m : ℝ) := by exact_mod_cast hm
    have hn0 : (0 : ℝ) ≤ (n : ℝ) := Nat.cast_nonneg n
    exact mul_nonneg (div_nonneg hm0 hn0)
      (le_of_lt (Real.log_pos (by norm_num)))
  · intro hash hashCount size bits item j
    simp [bloom_add, bloom_positions, List.mem_append, List.mem_map,
      List.mem_range, eq_comm]

/-- Witness for C6 as amended: the size-truncation identity applied at
`n = 1`, `p = 1/32` and the hash-count-truncation identity applied at
`n = 1`, `m = 7`. -/
theorem c6_amended_witness :
    ((1 : ℕ) ≤ 1 ∧ (0 : ℝ) < 1 / 32 ∧ (1 : ℝ) / 32 < 1 ∧ (0 : ℤ) ≤ 7) ∧
    optimal_size 1 (1 / 32) =
      Int.floor (-(((1 : ℕ) : ℝ) * Real.log (1 / 32)) / (Real.log 2) ^ 2) ∧
    optimal_hash_count 1 7 =
      max 1 (Int.floor ((((7 : ℤ) : ℝ) / ((1 : ℕ) : ℝ)) * Real.log 2)) :=
  ⟨⟨le_refl 1, by norm_num, by norm_num, by norm_num⟩,
   c6_amended.1 1 (1 / 32) (le_refl 1) (by norm_num) (by norm_num),
   c6_amended.2.1 1 7 (le_refl 1) (by norm_num)⟩

/-- Claim C7 is false as stated for the Exhaustive engine: with all five
toggles disabled and a colliding hash family, the run yields only
`["alice"]` — the second seed is suppressed by a Bloom-filter false
positive — instead of the full length-filtered seed set. -/
theorem c7_counterexample :
    advanced_generate ⟨3, 15, false, false, false, false, false⟩
      (generate_optimized_variations ⟨3, 15, false, false, false, false, false⟩ 500)
      (fun _ _ => 0) 1 8 500 ["alice", "smith"] (fun _ => true) (fun _ => true)
      ≠ List.filter (length_ok 3 15) ["alice", "smith"] := by
  decide

/-- Claim C7 as amended: with all five toggles disabled, a full run of the
Compact engine yields exactly the seed list filtered by the length bounds,
while the Exhaustive engine yields a duplicate-free subsequence of that
list — each yielded candidate is an unmodified seed within bounds, but a
Bloom-filter false positive may suppress a seed. -/
theorem c7_amended (cfg : GenCfg) (seeds : List String)
    (h1 : cfg.enable_leet = false) (h2 : cfg.enable_capitals = false)
    (h3 : cfg.append_numbers = false) (h4 : cfg.prepend_numbers = false)
    (h5 : cfg.special_chars = false) (hnd : seeds.Nodup) :
    basic_generate cfg seeds (fun _ => true) (fun _ => true) =
      seeds.filter (length_ok cfg.min_length cfg.max_length) ∧
    ∀ (hash : String → ℕ → ℕ) (hashCount size : ℕ) (wc vc : ℕ → Bool),
      List.Sublist
        (advanced_generate cfg (generate_optimized_variations cfg 500) hash
          hashCount size 500 seeds wc vc)
        (seeds.filter (length_ok cfg.min_length cfg.max_length)) := by
  constructor
  · exact basic_outer_off cfg h1 h2 h3 h4 h5 seeds [] 0 0 hnd (by simp)
  · intro hash hashCount size wc vc
    have hvf : generate_optimized_variations cfg 500 = fun w => [w] :=
      funext (fun w =>
        optimized_variations_off cfg 500 w h1 h2 h3 h4 h5 (by norm_num))
    unfold advanced_generate
    rw [hvf]
    exact adv_outer_single cfg hash hashCount size 500 wc vc (by norm_num)
      seeds [] 0 0

/-- Witness for C7 as amended: the Compact engine with both toggles-off
configuration and the seed list `["alice", "smith"]` yields exactly the
filtered seed list. -/
theorem c7_amended_witness :
    (["alice", "smith"] : List String).Nodup ∧
    basic_generate ⟨3, 15, false, false, false, false, false⟩ ["alice", "smith"]
      (fun _ => true) (fun _ => true) =
      List.filter (length_ok 3 15) ["alice", "smith"] :=
  ⟨by decide,
   (c7_amended ⟨3, 15, false, false, false, false, false⟩ ["alice", "smith"]
     rfl rfl rfl rfl rfl (by decide)).1⟩

end AWG
